import Mathlib

/-!
# Verification of the Smart Task Scheduler (src/main.py)

Shallow embedding of the four tool operations of the task scheduler:
`add_task`, `get_tasks`, `complete_task`, `get_task_recommendations`.

The Python module keeps a process-global `tasks : Dict[str, Task]`
(insertion-ordered, as Python dicts are).  We model the store as an
association list `List (String × Task)` in insertion order, and each
operation as a pure function threading the store explicitly.  Calls to
`datetime.now()` are modelled by an explicit timestamp argument.

`get_task_recommendations` sorts pending tasks with the key
`({"high": 0, "medium": 1, "low": 2}[x.priority], x.due_date)`; the
dictionary lookup raises `KeyError` when the priority of a pending task is
outside the enum, so the embedding returns `Option`, with `none`
standing for the raised exception.  the Python `sorted` builtin is a stable sort
on the lexicographic tuple order; we model it by a stable insertion
sort over the decorated (key, task) pairs and prove the characterising
properties (permutation, sortedness, stability) below.
-/

set_option maxHeartbeats 1000000

namespace Scheduler

/-- The task record (`class Task(BaseModel)` in src/main.py).
`completed_at = none` models the Python `None`. -/
structure Task where
  id : String
  title : String
  description : String
  due_date : String
  priority : String
  status : String
  created_at : String
  completed_at : Option String
  deriving DecidableEq, Repr

/-- The in-memory store `tasks : Dict[str, Task]`, as an insertion-ordered
association list (Python dicts preserve insertion order). -/
abbrev Store := List (String × Task)

/-- Python `tasks[k]` lookup (as an option): first entry with key `k`. -/
def dictGet? (tasks : Store) (k : String) : Option Task :=
  match tasks with
  | [] => none
  | p :: rest => if p.1 = k then some p.2 else dictGet? rest k

/-- Python `tasks[k] = v` on a dict: update in place if the key exists
(keeping its position), otherwise append at the end. -/
def dictInsert (k : String) (v : Task) : Store → Store
  | [] => [(k, v)]
  | p :: rest => if p.1 = k then (k, v) :: rest else p :: dictInsert k v rest

/-- Update the (first) entry with key `k` in place; used for the in-place
mutation `tasks[task_id].status = ...` performed by `complete_task`.
On a dict (no duplicate keys) this is exactly the Python behaviour. -/
def updateFirst (k : String) (v : Task) : Store → Store
  | [] => []
  | p :: rest => if p.1 = k then (p.1, v) :: rest else p :: updateFirst k v rest

/-- The operation `add_task(title, description, due_date, priority)` (src/main.py:88-111).
`now` models `datetime.now().isoformat()`.  Returns the created record and
the new store. -/
def add_task (title description due_date priority now : String)
    (tasks : Store) : Task × Store :=
  let task_id := "task_" ++ Nat.repr (tasks.length + 1)
  let task : Task :=
    { id := task_id, title := title, description := description,
      due_date := due_date, priority := priority, status := "pending",
      created_at := now, completed_at := none }
  (task, dictInsert task_id task tasks)

/-- The value sequence `tasks.values()` of the store. -/
def values (tasks : Store) : List Task := tasks.map Prod.snd

/-- The operation `get_tasks(status)` (src/main.py:114-126). -/
def get_tasks (status : String) (tasks : Store) : List Task :=
  if status = "all" then values tasks
  else (values tasks).filter (fun t => decide (t.status = status))

/-- Result of `complete_task`: either the dict `{"error": "Task not found"}`
or the updated task record. -/
inductive CompleteResult where
  | err (e : String)
  | ok (t : Task)
  deriving DecidableEq, Repr

/-- The operation `complete_task(task_id)` (src/main.py:129-145).  `now` models
`datetime.now().isoformat()`.  Returns the result together with the
(possibly mutated) store. -/
def complete_task (task_id now : String) (tasks : Store) :
    CompleteResult × Store :=
  match dictGet? tasks task_id with
  | none => (CompleteResult.err "Task not found", tasks)
  | some t =>
    let t2 := { t with status := "completed", completed_at := some now }
    (CompleteResult.ok t2, updateFirst task_id t2 tasks)

/-- The priority-rank dictionary `{"high": 0, "medium": 1, "low": 2}`;
`none` models the `KeyError` raised on any other priority string. -/
def priorityRank? (p : String) : Option Nat :=
  if p = "high" then some 0
  else if p = "medium" then some 1
  else if p = "low" then some 2
  else none

/-- The sort key `(rank, due_date)` used by `get_task_recommendations`. -/
abbrev SortKey := Nat × String

/-- The Python lexicographic order on the key tuples
`(rank, due_date) <= (rank2, due_date2)`. -/
def keyLe (a b : SortKey) : Prop :=
  a.1 < b.1 ∨ (a.1 = b.1 ∧ a.2 ≤ b.2)

instance (a b : SortKey) : Decidable (keyLe a b) :=
  decidable_of_iff (a.1 < b.1 ∨ (a.1 = b.1 ∧ a.2.data ≤ b.2.data)) (by
    unfold keyLe
    exact or_congr Iff.rfl (and_congr Iff.rfl String.le_iff_toList_le.symm))

/-- Insert a decorated task into an already-sorted run, after every element
strictly smaller than it and before every element it is `keyLe`-below:
the insertion step of a stable sort. -/
def insertPair (x : SortKey × Task) :
    List (SortKey × Task) → List (SortKey × Task)
  | [] => [x]
  | y :: ys => if keyLe x.1 y.1 then x :: y :: ys else y :: insertPair x ys

/-- Stable sort of the decorated list, modelling the stable Python `sorted`
on the key tuples. -/
def sortPairs : List (SortKey × Task) → List (SortKey × Task)
  | [] => []
  | x :: xs => insertPair x (sortPairs xs)

/-- The sort key of a task, `none` when the priority dictionary lookup
would raise `KeyError`. -/
def taskKey? (t : Task) : Option SortKey :=
  match priorityRank? t.priority with
  | some r => some (r, t.due_date)
  | none => none

/-- Decorate every task with its sort key; `none` as soon as any key
computation raises (Python computes the key of every element). -/
def decorate? : List Task → Option (List (SortKey × Task))
  | [] => some []
  | t :: ts =>
    match taskKey? t with
    | none => none
    | some k =>
      match decorate? ts with
      | none => none
      | some rest => some ((k, t) :: rest)

/-- One entry of `recommended_tasks`. -/
structure RecEntry where
  task_id : String
  title : String
  priority : String
  due_date : String
  reason : String
  deriving DecidableEq, Repr

/-- The result dictionary of `get_task_recommendations`. -/
structure RecResult where
  date : String
  recommended_tasks : List RecEntry
  deriving DecidableEq, Repr

/-- The conditional-expression `reason` string of src/main.py:182-184. -/
def mkReason (t : Task) : String :=
  if t.priority = "high" then "High priority task due on " ++ t.due_date
  else if t.priority = "medium" then "Medium priority task due on " ++ t.due_date
  else "Low priority task due on " ++ t.due_date

/-- The per-task entry built at src/main.py:177-185. -/
def mkEntry (t : Task) : RecEntry :=
  { task_id := t.id, title := t.title, priority := t.priority,
    due_date := t.due_date, reason := mkReason t }

/-- The pending-task snapshot of src/main.py:162. -/
def pendingOf (tasks : Store) : List Task :=
  (values tasks).filter (fun t => decide (t.status = "pending"))

/-- The operation `get_task_recommendations(date)` (src/main.py:148-190).  `today` models
`datetime.now().date().isoformat()`; the result is `none` exactly when the
sort-key computation raises `KeyError`. -/
def get_task_recommendations (date today : String) (tasks : Store) :
    Option RecResult :=
  let d := if date = "today" then today else date
  match decorate? (pendingOf tasks) with
  | none => none
  | some dec =>
    let sorted_tasks := (sortPairs dec).map Prod.snd
    some { date := d, recommended_tasks := (sorted_tasks.take 5).map mkEntry }

/-- One invocation of any of the four exposed operations, with the
clock readings it performs supplied as arguments. -/
inductive Op where
  | addT (title description due_date priority now : String)
  | getT (status : String)
  | completeT (task_id now : String)
  | recommendT (date today : String)

/-- The effect of one operation on the store (`get_tasks` and
`get_task_recommendations` are read-only). -/
def applyOp (tasks : Store) : Op → Store
  | Op.addT a b c d now => (add_task a b c d now tasks).2
  | Op.getT _ => tasks
  | Op.completeT tid now => (complete_task tid now tasks).2
  | Op.recommendT _ _ => tasks

/-- Run a sequence of operations from the empty initial store. -/
def runOps (ops : List Op) : Store := ops.foldl applyOp []

/-- A store state reachable by some sequence of the four operations. -/
def Reachable (s : Store) : Prop := ∃ ops, runOps ops = s

/-- Whether an operation is an `add_task` invocation. -/
def isAddOp : Op → Bool
  | Op.addT _ _ _ _ _ => true
  | _ => false

/-- Number of `add_task` invocations in a sequence of operations. -/
def countAdds (ops : List Op) : Nat := (ops.filter isAddOp).length

/-- Well-formedness of a single store entry: the `id` field of the record agrees
with its dict key, the status is one of the two enum values, and
`completed_at` is populated exactly on completed tasks. -/
def TaskOK (p : String × Task) : Prop :=
  p.2.id = p.1 ∧
  (p.2.status = "pending" ∨ p.2.status = "completed") ∧
  (p.2.completed_at.isSome ↔ p.2.status = "completed")

/-- The store invariant: the keys are exactly `task_1 ... task_n` in order
(`n` the store size) and every entry is well-formed. -/
def Inv (s : Store) : Prop :=
  s.map Prod.fst = (List.range' 1 s.length).map (fun i => "task_" ++ Nat.repr i) ∧
  ∀ p ∈ s, TaskOK p

/-- A decorated list is sorted when the keys are pairwise in the
lexicographic tuple order. -/
def SortedKeys (l : List (SortKey × Task)) : Prop :=
  l.Pairwise (fun p q => keyLe p.1 q.1)

/-- A concrete session (the worked example of the specification, plus one
completion): add (A, high, 2024-01-05), (B, low, 2024-01-01),
(C, high, 2024-01-02), then complete B. -/
def exOps : List Op :=
  [Op.addT "A" "da" "2024-01-05" "high" "t1",
   Op.addT "B" "db" "2024-01-01" "low" "t2",
   Op.addT "C" "dc" "2024-01-02" "high" "t3",
   Op.completeT "task_2" "t4"]

/-- The store reached by `exOps`. -/
def exStore : Store := runOps exOps

/-- A reachable store holding a pending task whose priority string is
outside the `{high, medium, low}` enum. -/
def badStore : Store := runOps [Op.addT "T" "d" "2024-01-01" "urgent" "t0"]

/-- A reachable store whose only malformed-priority task is completed,
so it never reaches the recommendation sort key. -/
def mixStore : Store :=
  runOps [Op.addT "T" "d" "2024-01-01" "urgent" "t0",
          Op.completeT "task_1" "t1"]

/-! ## Properties of the key order and the stable sort -/

lemma keyLe_refl (a : SortKey) : keyLe a a := Or.inr ⟨rfl, le_refl _⟩

lemma keyLe_total (a b : SortKey) : keyLe a b ∨ keyLe b a := by
  rcases Nat.lt_trichotomy a.1 b.1 with h | h | h
  · exact Or.inl (Or.inl h)
  · rcases le_total a.2 b.2 with h2 | h2
    · exact Or.inl (Or.inr ⟨h, h2⟩)
    · exact Or.inr (Or.inr ⟨h.symm, h2⟩)
  · exact Or.inr (Or.inl h)

lemma keyLe_trans {a b c : SortKey} (h1 : keyLe a b) (h2 : keyLe b c) :
    keyLe a c := by
  rcases h1 with h1 | ⟨h1, h1b⟩ <;> rcases h2 with h2 | ⟨h2, h2b⟩
  · exact Or.inl (lt_trans h1 h2)
  · exact Or.inl (h2 ▸ h1)
  · exact Or.inl (h1 ▸ h2)
  · exact Or.inr ⟨h1.trans h2, le_trans h1b h2b⟩

lemma insertPair_perm (x : SortKey × Task) (l : List (SortKey × Task)) :
    (insertPair x l).Perm (x :: l) := by
  induction l with
  | nil => simp [insertPair]
  | cons y ys ih =>
    by_cases h : keyLe x.1 y.1
    · simp [insertPair, h]
    · simp only [insertPair, if_neg h]
      exact (ih.cons y).trans (List.Perm.swap x y ys)

lemma sortPairs_perm (l : List (SortKey × Task)) : (sortPairs l).Perm l := by
  induction l with
  | nil => simp [sortPairs]
  | cons x xs ih => exact (insertPair_perm x (sortPairs xs)).trans (ih.cons x)

lemma mem_insertPair {x z : SortKey × Task} {l : List (SortKey × Task)}
    (h : z ∈ insertPair x l) : z = x ∨ z ∈ l := by
  have := (insertPair_perm x l).mem_iff.mp h
  simpa using this

lemma insertPair_sorted {x : SortKey × Task} {l : List (SortKey × Task)}
    (hl : SortedKeys l) : SortedKeys (insertPair x l) := by
  induction l with
  | nil => simp [insertPair, SortedKeys]
  | cons y ys ih =>
    rcases List.pairwise_cons.mp hl with ⟨hy, hys⟩
    by_cases h : keyLe x.1 y.1
    · simp only [insertPair, if_pos h, SortedKeys, List.pairwise_cons]
      refine ⟨?_, hy, hys⟩
      intro z hz
      rcases List.mem_cons.mp hz with hz | hz
      · rw [hz]; exact h
      · exact keyLe_trans h (hy z hz)
    · simp only [insertPair, if_neg h, SortedKeys, List.pairwise_cons]
      refine ⟨?_, ih hys⟩
      intro z hz
      rcases mem_insertPair hz with hz | hz
      · rw [hz]
        rcases keyLe_total x.1 y.1 with hxy | hxy
        · exact absurd hxy h
        · exact hxy
      · exact hy z hz

lemma sortPairs_sorted (l : List (SortKey × Task)) : SortedKeys (sortPairs l) := by
  induction l with
  | nil => simp [sortPairs, SortedKeys]
  | cons x xs ih => exact insertPair_sorted ih

lemma filter_insertPair_eq {x : SortKey × Task} {k : SortKey} (hx : x.1 = k)
    (l : List (SortKey × Task)) :
    (insertPair x l).filter (fun p => decide (p.1 = k))
      = x :: l.filter (fun p => decide (p.1 = k)) := by
  induction l with
  | nil => simp [insertPair, hx]
  | cons y ys ih =>
    by_cases h : keyLe x.1 y.1
    · simp only [insertPair, if_pos h]
      simp [hx]
    · have hyk : y.1 ≠ k := by
        intro he
        exact h (by rw [hx, he]; exact keyLe_refl k)
      simp only [insertPair, if_neg h]
      simp [hyk, ih]

lemma filter_insertPair_ne {x : SortKey × Task} {k : SortKey} (hx : x.1 ≠ k)
    (l : List (SortKey × Task)) :
    (insertPair x l).filter (fun p => decide (p.1 = k))
      = l.filter (fun p => decide (p.1 = k)) := by
  induction l with
  | nil => simp [insertPair, hx]
  | cons y ys ih =>
    by_cases h : keyLe x.1 y.1
    · simp only [insertPair, if_pos h]
      simp [hx]
    · simp only [insertPair, if_neg h]
      by_cases hy : y.1 = k <;> simp [hy, ih]

lemma sortPairs_filter (l : List (SortKey × Task)) (k : SortKey) :
    (sortPairs l).filter (fun p => decide (p.1 = k))
      = l.filter (fun p => decide (p.1 = k)) := by
  induction l with
  | nil => rfl
  | cons x xs ih =>
    by_cases hx : x.1 = k
    · simp only [sortPairs]
      rw [filter_insertPair_eq hx, ih]
      simp [hx]
    · simp only [sortPairs]
      rw [filter_insertPair_ne hx, ih]
      simp [hx]

/-! ## Properties of the key decoration -/

lemma decorate?_map_snd {ts : List Task} {dec : List (SortKey × Task)}
    (h : decorate? ts = some dec) : dec.map Prod.snd = ts := by
  induction ts generalizing dec with
  | nil =>
    simp only [decorate?, Option.some.injEq] at h
    rw [← h]; rfl
  | cons t ts ih =>
    simp only [decorate?] at h
    cases hk : taskKey? t with
    | none => rw [hk] at h; cases h
    | some k =>
      rw [hk] at h
      cases hd : decorate? ts with
      | none => rw [hd] at h; cases h
      | some rest =>
        rw [hd] at h
        simp only [Option.some.injEq] at h
        rw [← h]
        simp [ih hd]

lemma decorate?_key {ts : List Task} {dec : List (SortKey × Task)}
    (h : decorate? ts = some dec) : ∀ p ∈ dec, taskKey? p.2 = some p.1 := by
  induction ts generalizing dec with
  | nil =>
    simp only [decorate?, Option.some.injEq] at h
    rw [← h]; simp
  | cons t ts ih =>
    simp only [decorate?] at h
    cases hk : taskKey? t with
    | none => rw [hk] at h; cases h
    | some k =>
      rw [hk] at h
      cases hd : decorate? ts with
      | none => rw [hd] at h; cases h
      | some rest =>
        rw [hd] at h
        simp only [Option.some.injEq] at h
        rw [← h]
        intro p hp
        rcases List.mem_cons.mp hp with hp | hp
        · rw [hp]; exact hk
        · exact ih hd p hp

lemma decorate?_isSome {ts : List Task}
    (h : ∀ t ∈ ts, (priorityRank? t.priority).isSome) :
    (decorate? ts).isSome := by
  induction ts with
  | nil => simp [decorate?]
  | cons t ts ih =>
    have ht := h t (by simp)
    have hts : ∀ u ∈ ts, (priorityRank? u.priority).isSome :=
      fun u hu => h u (by simp [hu])
    simp only [decorate?]
    cases hk : taskKey? t with
    | none =>
      exfalso
      rw [taskKey?] at hk
      cases hr : priorityRank? t.priority with
      | none => rw [hr] at ht; cases ht
      | some r => rw [hr] at hk; cases hk
    | some k =>
      cases hd : decorate? ts with
      | none => rw [hd] at ih; cases ih hts
      | some rest => simp

lemma decorate?_eq_none {ts : List Task} (t : Task) (ht : t ∈ ts)
    (h : priorityRank? t.priority = none) : decorate? ts = none := by
  induction ts with
  | nil => cases ht
  | cons u ts ih =>
    simp only [decorate?]
    rcases List.mem_cons.mp ht with rfl | hmem
    · rw [taskKey?, h]
    · cases hk : taskKey? u with
      | none => rfl
      | some k => rw [ih hmem]

lemma map_snd_filter_key {pl : List (SortKey × Task)}
    (hinv : ∀ p ∈ pl, taskKey? p.2 = some p.1) (k : SortKey) :
    (pl.map Prod.snd).filter (fun t => decide (taskKey? t = some k))
      = (pl.filter (fun p => decide (p.1 = k))).map Prod.snd := by
  induction pl with
  | nil => rfl
  | cons p ps ih =>
    have hp := hinv p (by simp)
    have hps : ∀ q ∈ ps, taskKey? q.2 = some q.1 :=
      fun q hq => hinv q (by simp [hq])
    by_cases hk : p.1 = k
    · simp [hp, hk, ih hps]
    · have hne : ¬ taskKey? p.2 = some k := by
        rw [hp]; simpa using hk
      simp [hne, hk, ih hps]

/-! ## Properties of the dict operations -/

lemma dictGet?_mem {s : Store} {k : String} {t : Task}
    (h : dictGet? s k = some t) : (k, t) ∈ s := by
  induction s with
  | nil => cases h
  | cons p ps ih =>
    simp only [dictGet?] at h
    by_cases hp : p.1 = k
    · rw [if_pos hp] at h
      simp only [Option.some.injEq] at h
      have hpe : p = (k, t) := by
        cases p
        simp_all
      rw [← hpe]
      exact List.mem_cons_self p ps
    · rw [if_neg hp] at h
      exact List.mem_cons_of_mem p (ih h)

lemma dictGet?_eq_none {s : Store} {k : String}
    (h : ∀ p ∈ s, p.1 ≠ k) : dictGet? s k = none := by
  induction s with
  | nil => rfl
  | cons p ps ih =>
    simp only [dictGet?]
    rw [if_neg (h p (by simp))]
    exact ih fun q hq => h q (by simp [hq])

lemma updateFirst_map_fst (k : String) (v : Task) (s : Store) :
    (updateFirst k v s).map Prod.fst = s.map Prod.fst := by
  induction s with
  | nil => rfl
  | cons p ps ih =>
    by_cases h : p.1 = k
    · simp only [updateFirst, if_pos h]
      simp
    · simp only [updateFirst, if_neg h]
      simp [ih]

lemma updateFirst_length (k : String) (v : Task) (s : Store) :
    (updateFirst k v s).length = s.length := by
  have := congrArg List.length (updateFirst_map_fst k v s)
  simpa using this

lemma mem_updateFirst {s : Store} {k : String} {v : Task} {p : String × Task}
    (h : p ∈ updateFirst k v s) : p ∈ s ∨ p = (k, v) := by
  induction s with
  | nil => cases h
  | cons q qs ih =>
    by_cases hq : q.1 = k
    · rw [updateFirst, if_pos hq] at h
      rcases List.mem_cons.mp h with hp | hp
      · right; rw [hp, hq]
      · left; exact List.mem_cons_of_mem q hp
    · rw [updateFirst, if_neg hq] at h
      rcases List.mem_cons.mp h with hp | hp
      · left; rw [hp]; simp
      · rcases ih hp with hp2 | hp2
        · left; exact List.mem_cons_of_mem q hp2
        · right; exact hp2

lemma dictGet?_updateFirst_self {s : Store} {k : String} {t : Task} (v : Task)
    (h : dictGet? s k = some t) :
    dictGet? (updateFirst k v s) k = some v := by
  induction s with
  | nil => cases h
  | cons p ps ih =>
    simp only [dictGet?] at h
    by_cases hp : p.1 = k
    · rw [updateFirst, if_pos hp]
      simp only [dictGet?]
      rw [if_pos hp]
    · rw [updateFirst, if_neg hp]
      simp only [dictGet?]
      rw [if_neg hp]
      rw [if_neg hp] at h
      exact ih h

lemma dictGet?_updateFirst_ne {s : Store} (k k2 : String) (v : Task)
    (h : k2 ≠ k) : dictGet? (updateFirst k v s) k2 = dictGet? s k2 := by
  induction s with
  | nil => rfl
  | cons p ps ih =>
    by_cases hp : p.1 = k
    · have hne : ¬ p.1 = k2 := by
        rw [hp]
        intro he
        exact h he.symm
      rw [updateFirst, if_pos hp]
      simp only [dictGet?]
      rw [if_neg hne, if_neg hne]
    · rw [updateFirst, if_neg hp]
      simp only [dictGet?]
      by_cases hp2 : p.1 = k2
      · rw [if_pos hp2, if_pos hp2]
      · rw [if_neg hp2, if_neg hp2]
        exact ih

lemma dictInsert_of_fresh {s : Store} {k : String} (v : Task)
    (h : ∀ p ∈ s, p.1 ≠ k) : dictInsert k v s = s ++ [(k, v)] := by
  induction s with
  | nil => rfl
  | cons p ps ih =>
    rw [dictInsert, if_neg (h p (by simp))]
    rw [ih fun q hq => h q (by simp [hq])]
    rfl

/-! ## Injectivity of the id scheme `"task_" ++ Nat.repr i` -/

lemma digitChar_injOn : ∀ a < 10, ∀ b < 10,
    Nat.digitChar a = Nat.digitChar b → a = b := by decide

lemma toDigitsCore_eq_digits :
    ∀ (f n : Nat) (acc : List Char), 0 < n → n ≤ f →
      Nat.toDigitsCore 10 f n acc
        = ((Nat.digits 10 n).map Nat.digitChar).reverse ++ acc := by
  intro f
  induction f with
  | zero =>
    intro n acc h1 h2
    exact absurd h1 (by omega)
  | succ f ih =>
    intro n acc h1 h2
    rw [Nat.toDigitsCore]
    by_cases h : n / 10 = 0
    · simp only [h, if_pos rfl]
      rw [Nat.digits_def' (by norm_num : (1:ℕ) < 10) h1, h, Nat.digits_zero]
      simp
    · simp only [if_neg h]
      rw [ih (n / 10) (Nat.digitChar (n % 10) :: acc) (Nat.pos_of_ne_zero h)
        (by have := Nat.div_lt_self h1 (by norm_num : (1:ℕ) < 10); omega)]
      rw [Nat.digits_def' (by norm_num : (1:ℕ) < 10) h1]
      simp [List.append_assoc]

lemma toDigits_eq_digits (n : Nat) (h : 0 < n) :
    Nat.toDigits 10 n = ((Nat.digits 10 n).map Nat.digitChar).reverse := by
  rw [Nat.toDigits, toDigitsCore_eq_digits (n + 1) n [] h (by omega),
    List.append_nil]

lemma digits_map_digitChar_inj :
    ∀ (l1 l2 : List Nat), (∀ x ∈ l1, x < 10) → (∀ x ∈ l2, x < 10) →
      l1.map Nat.digitChar = l2.map Nat.digitChar → l1 = l2 := by
  intro l1
  induction l1 with
  | nil =>
    intro l2 _ _ h
    cases l2 with
    | nil => rfl
    | cons b l2 => cases h
  | cons a l1 ih =>
    intro l2 hb1 hb2 h
    cases l2 with
    | nil => cases h
    | cons b l2 =>
      simp only [List.map_cons, List.cons.injEq] at h
      have ha := hb1 a (by simp)
      have hbb := hb2 b (by simp)
      rw [digitChar_injOn a ha b hbb h.1,
        ih l2 (fun x hx => hb1 x (by simp [hx])) (fun x hx => hb2 x (by simp [hx])) h.2]

lemma toDigits_ne_of_pos (n : Nat) (h : 0 < n) : Nat.toDigits 10 n ≠ Nat.toDigits 10 0 := by
  intro he
  have h0 : Nat.toDigits 10 0 = ['0'] := rfl
  rw [toDigits_eq_digits n h, h0] at he
  have hmap : (Nat.digits 10 n).map Nat.digitChar = ['0'] := by
    have := congrArg List.reverse he
    simpa using this
  cases hd : Nat.digits 10 n with
  | nil => rw [hd] at hmap; cases hmap
  | cons d ds =>
    rw [hd] at hmap
    cases ds with
    | cons d2 ds2 => simp at hmap
    | nil =>
      simp only [List.map_cons, List.map_nil, List.cons.injEq] at hmap
      have hdlt : d < 10 :=
        Nat.digits_lt_base (by norm_num) (by rw [hd]; simp)
      have hd0 : d = 0 := digitChar_injOn d hdlt 0 (by norm_num) hmap.1
      have hof := Nat.ofDigits_digits 10 n
      rw [hd, hd0] at hof
      simp [Nat.ofDigits] at hof
      omega

lemma repr_injective : ∀ m n : Nat, Nat.repr m = Nat.repr n → m = n := by
  intro m n h
  rw [Nat.repr, Nat.repr] at h
  have h2 : Nat.toDigits 10 m = Nat.toDigits 10 n := List.asString_inj.mp h
  rcases Nat.eq_zero_or_pos m with hm | hm <;> rcases Nat.eq_zero_or_pos n with hn | hn
  · omega
  · subst hm
    exact absurd h2.symm (toDigits_ne_of_pos n hn)
  · subst hn
    exact absurd h2 (toDigits_ne_of_pos m hm)
  · rw [toDigits_eq_digits m hm, toDigits_eq_digits n hn] at h2
    have h3 := congrArg List.reverse h2
    simp only [List.reverse_reverse] at h3
    have h4 := digits_map_digitChar_inj _ _
      (fun x hx => Nat.digits_lt_base (by norm_num) hx)
      (fun x hx => Nat.digits_lt_base (by norm_num) hx) h3
    have h5 := Nat.ofDigits_digits 10 m
    rw [h4, Nat.ofDigits_digits] at h5
    exact h5.symm

lemma taskId_inj : Function.Injective (fun i : Nat => "task_" ++ Nat.repr i) := by
  intro i j h
  simp only at h
  have h2 := congrArg String.data h
  simp only [String.data_append] at h2
  have h3 := List.append_cancel_left h2
  exact repr_injective i j (String.ext h3)

/-! ## The store invariant and its preservation -/

lemma inv_nil : Inv [] := ⟨rfl, by simp⟩

lemma inv_fresh {s : Store} (h : Inv s) :
    ∀ p ∈ s, p.1 ≠ "task_" ++ Nat.repr (s.length + 1) := by
  obtain ⟨hkeys, _⟩ := h
  intro p hp he
  have hmem : p.1 ∈ s.map Prod.fst := List.mem_map_of_mem Prod.fst hp
  rw [hkeys] at hmem
  obtain ⟨i, hi, hie⟩ := List.mem_map.mp hmem
  have hiv : i = s.length + 1 := taskId_inj (hie.trans he)
  rw [List.mem_range'] at hi
  omega

lemma add_task_snd (a b c d now : String) (s : Store) :
    (add_task a b c d now s).2 =
      dictInsert ("task_" ++ Nat.repr (s.length + 1))
        { id := "task_" ++ Nat.repr (s.length + 1), title := a, description := b,
          due_date := c, priority := d, status := "pending",
          created_at := now, completed_at := none } s := rfl

lemma inv_add {s : Store} (h : Inv s) (a b c d now : String) :
    Inv (add_task a b c d now s).2 := by
  obtain ⟨hkeys, hok⟩ := h
  rw [add_task_snd, dictInsert_of_fresh _ (inv_fresh ⟨hkeys, hok⟩)]
  constructor
  · rw [List.map_append, hkeys, List.length_append]
    simp only [List.map_cons, List.map_nil, List.length_cons, List.length_nil]
    rw [List.range'_1_concat, List.map_append]
    have : (1 : ℕ) + s.length = s.length + 1 := by omega
    simp [this]
  · intro p hp
    rcases List.mem_append.mp hp with h1 | h1
    · exact hok p h1
    · simp only [List.mem_singleton] at h1
      rw [h1]
      exact ⟨rfl, Or.inl rfl, by simp⟩

lemma complete_task_snd_none {s : Store} {tid : String} (now : String)
    (h : dictGet? s tid = none) : (complete_task tid now s).2 = s := by
  rw [complete_task, h]

lemma complete_task_snd_some {s : Store} {tid : String} {t : Task} (now : String)
    (h : dictGet? s tid = some t) :
    (complete_task tid now s).2 =
      updateFirst tid { t with status := "completed", completed_at := some now } s := by
  rw [complete_task, h]

lemma inv_complete {s : Store} (h : Inv s) (tid now : String) :
    Inv (complete_task tid now s).2 := by
  obtain ⟨hkeys, hok⟩ := h
  cases hg : dictGet? s tid with
  | none =>
    rw [complete_task_snd_none now hg]
    exact ⟨hkeys, hok⟩
  | some t =>
    rw [complete_task_snd_some now hg]
    constructor
    · rw [updateFirst_map_fst, updateFirst_length, hkeys]
    · intro p hp
      rcases mem_updateFirst hp with h1 | h1
      · exact hok p h1
      · rw [h1]
        obtain ⟨hid, _, _⟩ := hok _ (dictGet?_mem hg)
        exact ⟨hid, Or.inr rfl, by simp⟩

lemma inv_applyOp {s : Store} (h : Inv s) (op : Op) : Inv (applyOp s op) := by
  cases op with
  | addT a b c d now => exact inv_add h a b c d now
  | getT st => exact h
  | completeT tid now => exact inv_complete h tid now
  | recommendT d t => exact h

lemma inv_foldl : ∀ (ops : List Op) (s : Store), Inv s →
    Inv (ops.foldl applyOp s) := by
  intro ops
  induction ops with
  | nil => intro s hs; exact hs
  | cons op ops ih =>
    intro s hs
    rw [List.foldl_cons]
    exact ih _ (inv_applyOp hs op)

lemma inv_runOps (ops : List Op) : Inv (runOps ops) :=
  inv_foldl ops [] inv_nil

lemma inv_reachable {s : Store} (h : Reachable s) : Inv s := by
  obtain ⟨ops, hops⟩ := h
  rw [← hops]
  exact inv_runOps ops

lemma add_length {s : Store} (h : Inv s) (a b c d now : String) :
    (add_task a b c d now s).2.length = s.length + 1 := by
  rw [add_task_snd, dictInsert_of_fresh _ (inv_fresh h)]
  simp

lemma complete_length (s : Store) (tid now : String) :
    (complete_task tid now s).2.length = s.length := by
  cases hg : dictGet? s tid with
  | none => rw [complete_task_snd_none now hg]
  | some t => rw [complete_task_snd_some now hg, updateFirst_length]

lemma foldl_length : ∀ (ops : List Op) (s : Store), Inv s →
    (ops.foldl applyOp s).length = s.length + countAdds ops := by
  intro ops
  induction ops with
  | nil => intro s _; simp [countAdds]
  | cons op ops ih =>
    intro s hs
    rw [List.foldl_cons, ih _ (inv_applyOp hs op)]
    cases op with
    | addT a b c d now =>
      have := add_length hs a b c d now
      simp only [applyOp, this, countAdds, List.filter_cons, isAddOp]
      simp
      omega
    | getT st =>
      simp only [applyOp, countAdds, List.filter_cons, isAddOp]
      simp
    | completeT tid now =>
      have := complete_length s tid now
      simp only [applyOp, this, countAdds, List.filter_cons, isAddOp]
      simp
    | recommendT d t =>
      simp only [applyOp, countAdds, List.filter_cons, isAddOp]
      simp

lemma runOps_length (ops : List Op) : (runOps ops).length = countAdds ops := by
  have := foldl_length ops [] inv_nil
  simpa [runOps] using this

/-! ## Claim theorems -/

/-- C3: on a store containing `task_id` as the key of a pending task `t`,
`complete_task` returns `ok` of the record equal to `t` except that
`status = "completed"` and `completed_at = some now`; in the new store that
record is stored under `task_id`, every other key maps to an unchanged
record, and the key sequence is unchanged.  The operation is not
idempotent: a second call re-stamps `completed_at` with the new
timestamp `now2`. -/
theorem complete_task_pending_spec (s : Store) (task_id now now2 : String)
    (t : Task) (hget : dictGet? s task_id = some t)
    (hpend : t.status = "pending") :
    (complete_task task_id now s).1
        = CompleteResult.ok { t with status := "completed", completed_at := some now } ∧
    dictGet? (complete_task task_id now s).2 task_id
        = some { t with status := "completed", completed_at := some now } ∧
    (∀ k, k ≠ task_id →
      dictGet? (complete_task task_id now s).2 k = dictGet? s k) ∧
    (complete_task task_id now s).2.map Prod.fst = s.map Prod.fst ∧
    (complete_task task_id now2 (complete_task task_id now s).2).1
        = CompleteResult.ok { t with status := "completed", completed_at := some now2 } := by
  have hpair : complete_task task_id now s
      = (CompleteResult.ok { t with status := "completed", completed_at := some now },
         updateFirst task_id { t with status := "completed", completed_at := some now } s) := by
    rw [complete_task, hget]
  refine ⟨by rw [hpair], ?_, ?_, ?_, ?_⟩
  · rw [hpair]
    exact dictGet?_updateFirst_self _ hget
  · intro k hk
    rw [hpair]
    exact dictGet?_updateFirst_ne task_id k _ hk
  · rw [hpair]
    exact updateFirst_map_fst _ _ _
  · rw [hpair]
    have hget2 := dictGet?_updateFirst_self
      { t with status := "completed", completed_at := some now } hget
    rw [complete_task, hget2]

/-- Witness for C3 at the sample store: completing `task_1` stamps `t9`,
re-completing stamps `t10`. -/
theorem complete_task_pending_spec_witness :
    (complete_task "task_1" "t9" exStore).1
        = CompleteResult.ok
          { id := "task_1", title := "A", description := "da",
            due_date := "2024-01-05", priority := "high", status := "completed",
            created_at := "t1", completed_at := some "t9" } ∧
    (complete_task "task_1" "t10" (complete_task "task_1" "t9" exStore).2).1
        = CompleteResult.ok
          { id := "task_1", title := "A", description := "da",
            due_date := "2024-01-05", priority := "high", status := "completed",
            created_at := "t1", completed_at := some "t10" } :=
  ⟨(complete_task_pending_spec exStore "task_1" "t9" "t10"
      { id := "task_1", title := "A", description := "da", due_date := "2024-01-05",
        priority := "high", status := "pending", created_at := "t1",
        completed_at := none } (by decide) rfl).1,
   (complete_task_pending_spec exStore "task_1" "t9" "t10"
      { id := "task_1", title := "A", description := "da", due_date := "2024-01-05",
        priority := "high", status := "pending", created_at := "t1",
        completed_at := none } (by decide) rfl).2.2.2.2⟩

/-- C4: `complete_task` on a key absent from the store returns the
structured error value `err "Task not found"` and leaves the store
completely unchanged. -/
theorem complete_task_not_found (s : Store) (task_id now : String)
    (h : ∀ p ∈ s, p.1 ≠ task_id) :
    complete_task task_id now s = (CompleteResult.err "Task not found", s) := by
  rw [complete_task, dictGet?_eq_none h]

/-- Witness for C4: `complete_task("task_99")` on the empty store. -/
theorem complete_task_not_found_witness :
    complete_task "task_99" "2024-01-01T00:00:00" []
      = (CompleteResult.err "Task not found", []) :=
  complete_task_not_found [] "task_99" "2024-01-01T00:00:00" (by simp)

/-- C5: in every reachable store state, the `completed_at` field of a task is
populated exactly when its `status` is `"completed"`. -/
theorem completed_at_iff_status (s : Store) (h : Reachable s)
    (p : String × Task) (hp : p ∈ s) :
    p.2.completed_at.isSome ↔ p.2.status = "completed" :=
  ((inv_reachable h).2 p hp).2.2

/-- Witness for C5 at the completed entry of the sample store. -/
theorem completed_at_iff_status_witness :
    ({ id := "task_2", title := "B", description := "db",
       due_date := "2024-01-01", priority := "low", status := "completed",
       created_at := "t2", completed_at := some "t4" } : Task).completed_at.isSome
      ↔ ({ id := "task_2", title := "B", description := "db",
           due_date := "2024-01-01", priority := "low", status := "completed",
           created_at := "t2", completed_at := some "t4" } : Task).status = "completed" :=
  completed_at_iff_status exStore ⟨exOps, rfl⟩
    ("task_2",
     { id := "task_2", title := "B", description := "db",
       due_date := "2024-01-01", priority := "low", status := "completed",
       created_at := "t2", completed_at := some "t4" }) (by decide)

/-- C9: the `date` argument of `get_task_recommendations` only influences
the echoed `date` field: calls with different dates on the same store
produce identical `recommended_tasks`, and the `date` field equals the
argument with the sentinel `"today"` replaced by the current date. -/
theorem date_noninterference (d1 d2 today : String) (s : Store)
    (r : RecResult) (hr : get_task_recommendations d1 today s = some r) :
    ((get_task_recommendations d1 today s).map (fun x => x.recommended_tasks)
      = (get_task_recommendations d2 today s).map (fun x => x.recommended_tasks)) ∧
    r.date = (if d1 = "today" then today else d1) := by
  constructor
  · simp only [get_task_recommendations]
    cases decorate? (pendingOf s) <;> simp
  · cases hd : decorate? (pendingOf s) with
    | none =>
      exfalso
      simp only [get_task_recommendations, hd] at hr
      cases hr
    | some dec =>
      have h2 : get_task_recommendations d1 today s
          = some { date := if d1 = "today" then today else d1,
                   recommended_tasks :=
                     (((sortPairs dec).map Prod.snd).take 5).map mkEntry } := by
        simp only [get_task_recommendations, hd]
      have h3 := Option.some_inj.mp (h2.symm.trans hr)
      rw [← h3]

/-- Witness for C9: a date argument and the sentinel give the same
recommendation list on the sample store, and the date is echoed back. -/
theorem date_noninterference_witness :
    ((get_task_recommendations "2024-03-01" "2024-02-02" exStore).map
        (fun x => x.recommended_tasks)
      = (get_task_recommendations "today" "2024-02-02" exStore).map
        (fun x => x.recommended_tasks)) ∧
    ({ date := "2024-03-01", recommended_tasks :=
        [{ task_id := "task_3", title := "C", priority := "high",
           due_date := "2024-01-02",
           reason := "High priority task due on 2024-01-02" },
         { task_id := "task_1", title := "A", priority := "high",
           due_date := "2024-01-05",
           reason := "High priority task due on 2024-01-05" }] } : RecResult).date
      = (if "2024-03-01" = "today" then "2024-02-02" else "2024-03-01") :=
  date_noninterference "2024-03-01" "today" "2024-02-02" exStore
    { date := "2024-03-01", recommended_tasks :=
        [{ task_id := "task_3", title := "C", priority := "high",
           due_date := "2024-01-02",
           reason := "High priority task due on 2024-01-02" },
         { task_id := "task_1", title := "A", priority := "high",
           due_date := "2024-01-05",
           reason := "High priority task due on 2024-01-05" }] } (by decide)

/-- C10 (implicit): in every reachable store state, `get_tasks` with a
status outside `{all, pending, completed}` returns the empty list, without
any error, because it filters by literal equality against statuses that
are always `"pending"` or `"completed"`. -/
theorem get_tasks_unknown_status (s : Store) (h : Reachable s)
    (status : String) (h1 : status ≠ "all") (h2 : status ≠ "pending")
    (h3 : status ≠ "completed") : get_tasks status s = [] := by
  obtain ⟨_, hok⟩ := inv_reachable h
  rw [get_tasks, if_neg h1]
  apply List.filter_eq_nil_iff.mpr
  intro t ht
  simp only [values] at ht
  obtain ⟨p, hp, hpt⟩ := List.mem_map.mp ht
  simp only [decide_eq_true_eq]
  rw [← hpt]
  rcases (hok p hp).2.1 with hs | hs
  · rw [hs]
    exact fun he => h2 he.symm
  · rw [hs]
    exact fun he => h3 he.symm

/-- Witness for C10: `get_tasks("done")` on the sample store is empty. -/
theorem get_tasks_unknown_status_witness : get_tasks "done" exStore = [] :=
  get_tasks_unknown_status exStore ⟨exOps, rfl⟩ "done"
    (by decide) (by decide) (by decide)

/-- C6: ids are unique for the lifetime of the store and derived from the
record count at call time: after any sequence of operations the stored ids
are pairwise distinct, the store size equals the number of `add_task`
calls made, and the next `add_task` returns the id formed from count + 1,
which collides with no stored id.  (The n-th `add_task` thus receives
`"task_" ++ repr n`.) -/
theorem add_task_ids_unique (ops : List Op) (a b c d now : String) :
    ((runOps ops).map (fun p => p.2.id)).Nodup ∧
    (runOps ops).length = countAdds ops ∧
    (add_task a b c d now (runOps ops)).1.id
        = "task_" ++ Nat.repr (countAdds ops + 1) ∧
    (add_task a b c d now (runOps ops)).1.id
        ∉ (runOps ops).map (fun p => p.2.id) := by
  obtain ⟨hkeys, hok⟩ := inv_runOps ops
  have hids : (runOps ops).map (fun p => p.2.id) = (runOps ops).map Prod.fst :=
    List.map_congr_left (fun p hp => (hok p hp).1)
  have hlen := runOps_length ops
  refine ⟨?_, hlen, ?_, ?_⟩
  · rw [hids, hkeys]
    exact (List.nodup_range' 1 (runOps ops).length).map taskId_inj
  · show "task_" ++ Nat.repr ((runOps ops).length + 1)
        = "task_" ++ Nat.repr (countAdds ops + 1)
    rw [hlen]
  · rw [hids]
    intro hmem
    obtain ⟨p, hp, hpe⟩ := List.mem_map.mp hmem
    exact inv_fresh ⟨hkeys, hok⟩ p hp hpe

/-- C7: every entry of `recommended_tasks` is built (by `mkEntry`) from a
task that is in the store with status `"pending"` at call time; no
completed task ever appears. -/
theorem recommendations_only_pending (date today : String) (s : Store)
    (r : RecResult) (h : get_task_recommendations date today s = some r)
    (e : RecEntry) (he : e ∈ r.recommended_tasks) :
    ∃ t : Task, t ∈ values s ∧ t.status = "pending" ∧ e = mkEntry t := by
  cases hd : decorate? (pendingOf s) with
  | none =>
    simp only [get_task_recommendations, hd] at h
    cases h
  | some dec =>
    have hr : r = { date := if date = "today" then today else date,
                    recommended_tasks :=
                      (((sortPairs dec).map Prod.snd).take 5).map mkEntry } := by
      have h3 : get_task_recommendations date today s
          = some { date := if date = "today" then today else date,
                   recommended_tasks :=
                     (((sortPairs dec).map Prod.snd).take 5).map mkEntry } := by
        simp only [get_task_recommendations, hd]
      exact (Option.some_inj.mp (h3.symm.trans h)).symm
    rw [hr] at he
    simp only [List.mem_map] at he
    obtain ⟨t, ht, hte⟩ := he
    have ht2 : t ∈ (sortPairs dec).map Prod.snd := List.mem_of_mem_take ht
    have ht3 : t ∈ dec.map Prod.snd :=
      ((sortPairs_perm dec).map Prod.snd).mem_iff.mp ht2
    rw [decorate?_map_snd hd] at ht3
    simp only [pendingOf] at ht3
    have hf := List.mem_filter.mp ht3
    exact ⟨t, hf.1, by simpa using hf.2, hte.symm⟩

/-- Witness for C7: the top entry of the sample recommendation comes from
the pending task C. -/
theorem recommendations_only_pending_witness :
    ∃ t : Task, t ∈ values exStore ∧ t.status = "pending"
      ∧ ({ task_id := "task_3", title := "C", priority := "high",
           due_date := "2024-01-02",
           reason := "High priority task due on 2024-01-02" } : RecEntry)
          = mkEntry t :=
  recommendations_only_pending "today" "2024-02-02" exStore
    { date := "2024-02-02", recommended_tasks :=
        [{ task_id := "task_3", title := "C", priority := "high",
           due_date := "2024-01-02",
           reason := "High priority task due on 2024-01-02" },
         { task_id := "task_1", title := "A", priority := "high",
           due_date := "2024-01-05",
           reason := "High priority task due on 2024-01-05" }] } (by decide)
    { task_id := "task_3", title := "C", priority := "high",
      due_date := "2024-01-02",
      reason := "High priority task due on 2024-01-02" } (by decide)

/-- C8: in every reachable store state, `get_tasks "all"` equals the union
of `get_tasks "pending"` and `get_tasks "completed"` as sets, and returns
exactly the stored records in creation order (the value sequence of the
store, whose ids are `task_1 ... task_n` in order). -/
theorem get_tasks_union_all (s : Store) (h : Reachable s) (t : Task) :
    (t ∈ get_tasks "all" s ↔
      (t ∈ get_tasks "pending" s ∨ t ∈ get_tasks "completed" s)) ∧
    get_tasks "all" s = values s ∧
    (get_tasks "all" s).map (fun u => u.id)
      = (List.range' 1 s.length).map (fun i => "task_" ++ Nat.repr i) := by
  obtain ⟨hkeys, hok⟩ := inv_reachable h
  have hall : get_tasks "all" s = values s := by rw [get_tasks, if_pos rfl]
  refine ⟨?_, hall, ?_⟩
  · rw [hall, get_tasks, get_tasks, if_neg (by decide), if_neg (by decide)]
    constructor
    · intro ht
      have htm : t ∈ s.map Prod.snd := ht
      obtain ⟨p, hp, hpt⟩ := List.mem_map.mp htm
      rcases (hok p hp).2.1 with hs | hs
      · left
        apply List.mem_filter.mpr
        refine ⟨ht, ?_⟩
        rw [← hpt, hs]
        simp
      · right
        apply List.mem_filter.mpr
        refine ⟨ht, ?_⟩
        rw [← hpt, hs]
        simp
    · intro ht
      rcases ht with ht | ht <;> exact List.mem_of_mem_filter ht
  · rw [hall]
    have hmap : (values s).map (fun u => u.id) = s.map Prod.fst := by
      rw [values, List.map_map]
      exact List.map_congr_left (fun p hp => (hok p hp).1)
    rw [hmap, hkeys]

/-- Witness for C8 at the sample store and its first task. -/
theorem get_tasks_union_all_witness :
    (({ id := "task_1", title := "A", description := "da",
        due_date := "2024-01-05", priority := "high", status := "pending",
        created_at := "t1", completed_at := none } : Task) ∈ get_tasks "all" exStore ↔
      (({ id := "task_1", title := "A", description := "da",
          due_date := "2024-01-05", priority := "high", status := "pending",
          created_at := "t1", completed_at := none } : Task) ∈ get_tasks "pending" exStore ∨
       ({ id := "task_1", title := "A", description := "da",
          due_date := "2024-01-05", priority := "high", status := "pending",
          created_at := "t1", completed_at := none } : Task) ∈ get_tasks "completed" exStore)) ∧
    get_tasks "all" exStore = values exStore ∧
    (get_tasks "all" exStore).map (fun u => u.id)
      = (List.range' 1 exStore.length).map (fun i => "task_" ++ Nat.repr i) :=
  get_tasks_union_all exStore ⟨exOps, rfl⟩
    { id := "task_1", title := "A", description := "da",
      due_date := "2024-01-05", priority := "high", status := "pending",
      created_at := "t1", completed_at := none }

/-- C1: whenever `get_task_recommendations` returns a result, it has at
most 5 entries, and the entries are the first five elements of a list `L`
that is a permutation of the pending snapshot, is sorted by the composite
key (priority rank with high = 0, medium = 1, low = 2; then due_date,
string-lexicographically) in the order `keyLe`, and is stable: the tasks
carrying any fixed key appear in `L` exactly as they appear in the
snapshot, i.e. in original insertion order. -/
theorem recommendations_sorted_bounded (date today : String) (s : Store)
    (r : RecResult) (h : get_task_recommendations date today s = some r) :
    r.recommended_tasks.length ≤ 5 ∧
    ∃ L : List Task,
      L.Perm (pendingOf s) ∧
      L.Pairwise (fun t u => ∀ kt ku, taskKey? t = some kt →
        taskKey? u = some ku → keyLe kt ku) ∧
      (∀ k : SortKey,
        L.filter (fun t => decide (taskKey? t = some k))
          = (pendingOf s).filter (fun t => decide (taskKey? t = some k))) ∧
      r.recommended_tasks = (L.take 5).map mkEntry := by
  cases hd : decorate? (pendingOf s) with
  | none =>
    simp only [get_task_recommendations, hd] at h
    cases h
  | some dec =>
    have hr : r = { date := if date = "today" then today else date,
                    recommended_tasks :=
                      (((sortPairs dec).map Prod.snd).take 5).map mkEntry } := by
      have h3 : get_task_recommendations date today s
          = some { date := if date = "today" then today else date,
                   recommended_tasks :=
                     (((sortPairs dec).map Prod.snd).take 5).map mkEntry } := by
        simp only [get_task_recommendations, hd]
      exact (Option.some_inj.mp (h3.symm.trans h)).symm
    have hkey_sorted : ∀ p ∈ sortPairs dec, taskKey? p.2 = some p.1 :=
      fun p hp => decorate?_key hd p ((sortPairs_perm dec).mem_iff.mp hp)
    refine ⟨?_, (sortPairs dec).map Prod.snd, ?_, ?_, ?_, ?_⟩
    · rw [hr]
      simp only [List.length_map, List.length_take]
      exact Nat.min_le_left _ _
    · have hp := (sortPairs_perm dec).map Prod.snd
      rw [decorate?_map_snd hd] at hp
      exact hp
    · rw [List.pairwise_map]
      apply List.Pairwise.imp_of_mem ?_ (sortPairs_sorted dec)
      intro p q hp hq hle kt ku hkt hku
      rw [hkey_sorted p hp] at hkt
      rw [hkey_sorted q hq] at hku
      rw [← Option.some_inj.mp hkt, ← Option.some_inj.mp hku]
      exact hle
    · intro k
      rw [map_snd_filter_key hkey_sorted k, sortPairs_filter,
        ← map_snd_filter_key (decorate?_key hd) k, decorate?_map_snd hd]
    · rw [hr]

/-- Witness for C1: the sample store (spec example) yields C before A. -/
theorem recommendations_sorted_bounded_witness :
    ({ date := "2024-02-02", recommended_tasks :=
        [{ task_id := "task_3", title := "C", priority := "high",
           due_date := "2024-01-02",
           reason := "High priority task due on 2024-01-02" },
         { task_id := "task_1", title := "A", priority := "high",
           due_date := "2024-01-05",
           reason := "High priority task due on 2024-01-05" }] } :
        RecResult).recommended_tasks.length ≤ 5 ∧
    ∃ L : List Task,
      L.Perm (pendingOf exStore) ∧
      L.Pairwise (fun t u => ∀ kt ku, taskKey? t = some kt →
        taskKey? u = some ku → keyLe kt ku) ∧
      (∀ k : SortKey,
        L.filter (fun t => decide (taskKey? t = some k))
          = (pendingOf exStore).filter (fun t => decide (taskKey? t = some k))) ∧
      ({ date := "2024-02-02", recommended_tasks :=
          [{ task_id := "task_3", title := "C", priority := "high",
             due_date := "2024-01-02",
             reason := "High priority task due on 2024-01-02" },
           { task_id := "task_1", title := "A", priority := "high",
             due_date := "2024-01-05",
             reason := "High priority task due on 2024-01-05" }] } :
          RecResult).recommended_tasks = (L.take 5).map mkEntry :=
  recommendations_sorted_bounded "today" "2024-02-02" exStore
    { date := "2024-02-02", recommended_tasks :=
        [{ task_id := "task_3", title := "C", priority := "high",
           due_date := "2024-01-02",
           reason := "High priority task due on 2024-01-02" },
         { task_id := "task_1", title := "A", priority := "high",
           due_date := "2024-01-05",
           reason := "High priority task due on 2024-01-05" }] } (by decide)

/-- C2 as stated is false on the code: a store holding a PENDING task
whose priority is outside the enum (here `"urgent"`, reachable by a
single `add_task`) makes the sort-key dictionary lookup raise `KeyError`,
modelled by the `none` result, instead of returning a value. -/
theorem recommendations_raise_on_bad_priority :
    get_task_recommendations "2024-01-07" "2024-01-07" badStore = none := by
  decide

/-- C2 amended: `get_task_recommendations` returns normally on every
store whose pending tasks all carry priorities inside the enum — in
particular a malformed priority on a completed task, or a malformed due
date, is silently accepted — and an empty store produces the empty
`recommended_tasks` list. -/
theorem recommendations_total_on_enum_priorities (date today : String)
    (s : Store) (h : ∀ t ∈ pendingOf s, (priorityRank? t.priority).isSome) :
    (get_task_recommendations date today s).isSome ∧
    get_task_recommendations date today []
      = some { date := if date = "today" then today else date,
               recommended_tasks := [] } := by
  constructor
  · have hsome := decorate?_isSome h
    cases hd : decorate? (pendingOf s) with
    | none => rw [hd] at hsome; cases hsome
    | some dec =>
      simp only [get_task_recommendations, hd]
      rfl
  · rfl

/-- Witness for the C2 amendment: the store whose only malformed-priority
task is completed is handled without error, and the empty store yields
the empty list. -/
theorem recommendations_total_on_enum_priorities_witness :
    (get_task_recommendations "2024-01-07" "2024-01-05" mixStore).isSome ∧
    get_task_recommendations "2024-01-07" "2024-01-05" []
      = some { date := "2024-01-07", recommended_tasks := [] } :=
  recommendations_total_on_enum_priorities "2024-01-07" "2024-01-05"
    mixStore (by decide)

end Scheduler
